import Mathlib

/-!
Verification of the dependency-ordered module-compilation pipeline
(`src/node/recursiveModuleCompile.js`).

The JavaScript source is shallowly embedded as state-passing Lean
functions.  Promise chains (`p.then(onOk, onErr)`) are modelled as
sequential composition over `Except String`: a `.then` success handler
runs only on `Except.ok`, a rejection handler only on `Except.error`,
and a rejection skips intervening success handlers — which is exactly
the short-circuit behaviour of the embedding below.

Process-wide and heap state is made explicit in a `World` record:
  * `cwd`      — the ambient working directory (`process.cwd`);
  * `heap`     — a store of options objects, so that object identity
                 (`new Options(options)` creating a fresh object) and
                 in-place mutation (`options.bundle = ...`) are
                 observable;
  * `elements` — the current loader session's ordered element list;
  * `trace`    — an event log recording every externally visible call
                 (loader invocations, `mkdirRecursive`, `process.chdir`,
                 `compiler.writeTreeToFile`, compiler construction).

External collaborators (the Traceur loader and compiler) are
parameters: a `LoaderExternals` value supplies the behaviour of
`loader.import` / `loader.loadAsScript` (which elements the loader
appends and whether the load settles successfully) and the module-name
normalizer used for evaluation markers.

POSIX paths are modelled as an absoluteness flag plus a raw segment
list; Node's `path.resolve` / `path.dirname` / `path.relative` /
`path.join` are embedded on that representation.
-/

deriving instance DecidableEq for Except

namespace RecursiveModuleCompile

/-- A POSIX path: absoluteness flag plus the raw `/`-separated segment
list.  Unnormalized paths are representable: segments may be `""`,
`"."` or `".."`. -/
structure PPath where
  abs : Bool
  segs : List String
deriving DecidableEq, Repr, Inhabited

/-- A segment is in normal form when it is none of `""`, `"."`, `".."`. -/
def goodSeg (s : String) : Prop :=
  s ≠ "" ∧ s ≠ "." ∧ s ≠ ".."

instance : DecidablePred goodSeg := fun s => by
  unfold goodSeg
  infer_instance

/-- One step of Node's path normalization: drop empty and `"."`
segments, let `".."` pop the previous segment (a `".."` above the root
of an absolute path is discarded). -/
def normStep (acc : List String) (seg : String) : List String :=
  if seg = "" ∨ seg = "." then acc
  else if seg = ".." then acc.dropLast
  else acc ++ [seg]

/-- Node path normalization of a segment list (for an absolute path,
where `".."` above the root is discarded). -/
def normSegs (segs : List String) : List String :=
  segs.foldl normStep []

/-- Model of Node `path.resolve(p)` with ambient working directory
`cwd` (assumed absolute): an absolute `p` is normalized as is, a
relative `p` is appended to `cwd` and the result normalized.  The
result is always an absolute path. -/
def pathResolve (cwd p : PPath) : PPath :=
  ⟨true, normSegs (if p.abs then p.segs else cwd.segs ++ p.segs)⟩

/-- Model of Node `path.dirname` on a resolved absolute path: drop the
last segment. -/
def pathDirname (p : PPath) : PPath :=
  ⟨p.abs, p.segs.dropLast⟩

/-- Model of Node `path.join` for an absolute base path: concatenate
and normalize. -/
def pathJoin (a b : PPath) : PPath :=
  ⟨a.abs, normSegs (a.segs ++ b.segs)⟩

/-- Segment computation behind Node `path.relative`: drop the longest
common prefix, then one `".."` per remaining segment of the source
followed by the remaining segments of the target. -/
def relSegs : List String → List String → List String
  | [], ts => ts
  | f :: fs, [] => (f :: fs).map fun _ => ".."
  | f :: fs, t :: ts =>
    if f = t then relSegs fs ts
    else ((f :: fs).map fun _ => "..") ++ t :: ts

/-- Model of Node `path.relative(f, t)` on resolved absolute paths. -/
def pathRelative (f t : PPath) : PPath :=
  ⟨false, relSegs f.segs t.segs⟩

/-- Modelled from the spec: `file-util.js` (`normalizePath`) is not
under `src/`; per the spec it only converts separators to the
platform-neutral form, which is the identity in this POSIX segment
model. -/
def normalizePath (p : PPath) : PPath := p

/-- The recognized option fields of a compile request
(`CompileRequestOptions`), plus an opaque pass-through list. -/
structure OptionsData where
  bundle : Bool := false
  depTarget : Option String := none
  referrer : Option String := none
  modules : Option String := none
  passthrough : List (String × String) := []
deriving DecidableEq, Repr, Inhabited

/-- A compiled element of a loader session. -/
inductive Element where
  | compiled (tag : String)
  | evaluationMarker (canonicalName : String)
deriving DecidableEq, Repr

/-- The merged output tree: an ordered list of elements. -/
structure Tree where
  elements : List Element
deriving DecidableEq, Repr

/-- Modelled from the spec: `InlineLoaderCompiler` is not under
`src/`; per the spec its `toTree` returns the accumulated elements as
one ordered tree. -/
def toTree (elements : List Element) : Tree :=
  ⟨elements⟩

/-- One caller-supplied entry (`{name, type}` in the source; `type` is
the string `"script"` or `"module"`). -/
structure Entry where
  name : PPath
  type : String
deriving DecidableEq, Repr

/-- The `loadOptions` bag handed to the external loader: the referrer
name, the heap reference of the per-load options copy
(`metadata.traceurOptions`), and the contents of that copy at hand-off
time. -/
structure LoadOptions where
  referrerName : Option String
  traceurOptionsRef : Nat
  traceurOptions : OptionsData
deriving DecidableEq, Repr

/-- Externally visible events of one run. -/
inductive Event where
  | compilerConstructed (opts : OptionsData)
  | mkdir (dir : PPath)
  | chdir (dir : PPath)
  | sessionStarted (basePath : PPath)
  | loadStarted (name : PPath) (asScript : Bool) (lo : LoadOptions)
  | writeTree (tree : Option Tree) (file : PPath)
deriving DecidableEq, Repr

/-- The explicit program state: ambient working directory, options
heap, current session elements, and the event trace. -/
structure World where
  cwd : PPath
  heap : List OptionsData
  elements : List Element
  trace : List Event
deriving DecidableEq, Repr

/-- Read an options object from the heap. -/
def heapGet (h : List OptionsData) (r : Nat) : OptionsData :=
  h.getD r default

/-- Overwrite an options object in the heap. -/
def heapSet (h : List OptionsData) (r : Nat) (v : OptionsData) : List OptionsData :=
  h.set r v

/-- The external collaborators of the pipeline: the loader behaviour
(`loader.import` when `asScript = false`, `loader.loadAsScript` when
`asScript = true`: the elements it appends to the session and whether
the load settles successfully), and the module-name normalizer
(`traceur.ModuleStore.normalize`). -/
structure LoaderExternals where
  beh : PPath → Bool → LoadOptions → List Element × Except String Unit
  normalize : PPath → Option String → String

/-- Embedding of `appendEvaluateModule` (source lines 123–130):
normalize the entry name against the referrer and append the
evaluation-marker element (`createModuleEvaluationStatement`) to the
session's element list. -/
def appendEvaluateModule (ext : LoaderExternals) (referrerName : Option String)
    (name : PPath) (w : World) : World :=
  let normalizedName := ext.normalize name referrerName
  let tree := Element.evaluationMarker normalizedName
  { w with elements := w.elements ++ [tree] }

/-- Embedding of `loadInput` (source lines 132–155): clone the options
object (`new Options(options)`), choose `loadAsScript` for `"script"`
entries and `import` otherwise, decide whether an evaluation marker is
due (`optionsCopy.modules === 'register'`), hand the loader the
`loadOptions` bag, and on successful settlement append the marker when
due.  A rejection propagates verbatim. -/
def loadInput (ext : LoaderExternals) (referrerName : Option String) (optRef : Nat)
    (input : Entry) (w : World) : Except String Unit × World :=
  let name := input.name
  let optionsCopy := heapGet w.heap optRef
  let copyRef := w.heap.length
  let asScript := input.type == "script"
  let doEvaluateModule := !asScript && (optionsCopy.modules == some "register")
  let loadOptions : LoadOptions := ⟨referrerName, copyRef, optionsCopy⟩
  let w1 := { w with heap := w.heap ++ [optionsCopy], trace := w.trace ++ [Event.loadStarted name asScript loadOptions] }
  match ext.beh name asScript loadOptions with
  | (elems, Except.ok _) =>
    let w2 := { w1 with elements := w1.elements ++ elems }
    (Except.ok (), if doEvaluateModule then appendEvaluateModule ext referrerName name w2 else w2)
  | (elems, Except.error e) =>
    (Except.error e, { w1 with elements := w1.elements ++ elems })

/-- Embedding of `sequencePromises` (source lines 89–95): chain
`f item` along the list, each step starting only after the previous
settled successfully; a rejection short-circuits the chain (the later
`.then` success handlers never run) and propagates verbatim. -/
def sequencePromises {σ α : Type} (list : List α) (f : α → σ → Except String Unit × σ)
    (s : σ) : Except String Unit × σ :=
  match list with
  | [] => (Except.ok (), s)
  | item :: rest =>
    match f item s with
    | (Except.ok _, s1) => sequencePromises rest f s1
    | (Except.error e, s1) => (Except.error e, s1)

/-- Embedding of `recursiveModuleCompile` (source lines 111–164): read
`depTarget` and `referrer` from the options object, start a fresh
loader session (empty element list, base path `path.resolve('./')`),
drive all entries through `loadInput` via `sequencePromises`, and on
success return `null` in dependency-target mode or the accumulated
tree otherwise. -/
def recursiveModuleCompile (ext : LoaderExternals) (fileNamesAndTypes : List Entry)
    (optRef : Nat) (w : World) : Except String (Option Tree) × World :=
  let depTarget := (heapGet w.heap optRef).depTarget
  let referrerName := (heapGet w.heap optRef).referrer
  let basePath := pathResolve w.cwd ⟨false, ["."]⟩
  let w0 := { w with elements := [], trace := w.trace ++ [Event.sessionStarted basePath] }
  match sequencePromises fileNamesAndTypes (loadInput ext referrerName optRef) w0 with
  | (Except.ok _, w1) =>
    if depTarget.isSome then (Except.ok none, w1)
    else (Except.ok (some (toTree w1.elements)), w1)
  | (Except.error e, w1) => (Except.error e, w1)

/-- Embedding of the per-include resolution step of
`recursiveModuleCompileToSingleFile` (source lines 37–40):
`include.name = path.resolve(include.name)`. -/
def resolveInclude (cwd : PPath) (inc : Entry) : Entry :=
  { inc with name := pathResolve cwd inc.name }

/-- The options contents passed to `new NodeCompiler(options)` by the
single-file path after the in-place mutation
`options.bundle = includes.length > 1` (source lines 42–43). -/
def singleFileCompilerOptions (includes : List Entry) (optRef : Nat)
    (heap : List OptionsData) : OptionsData :=
  { heapGet heap optRef with bundle := decide (includes.length > 1) }

/-- Embedding of `revertCwd` (source lines 28–30): `process.chdir` back
to the directory captured at module load time. -/
def revertCwd (moduleCwd : PPath) (w : World) : World :=
  { w with cwd := moduleCwd, trace := w.trace ++ [Event.chdir moduleCwd] }

/-- Embedding of `recursiveModuleCompileToSingleFile` (source lines
32–60).  `moduleCwd` is the module-level `cwd` captured by
`var cwd = process.cwd()` at module load (source line 26).  Steps, in
source order: resolve the output file against the ambient directory,
take its parent as `outputDir`, resolve the includes in place, mutate
`options.bundle` on the caller's options object, construct the
compiler, create `outputDir`, `process.chdir(outputDir)`, rewrite the
includes relative to `outputDir`, run `recursiveModuleCompile`, on
success hand the tree to `compiler.writeTreeToFile`, and finally
`revertCwd` on both the success and the rejection path (rethrowing the
error). -/
def recursiveModuleCompileToSingleFile (ext : LoaderExternals) (moduleCwd : PPath)
    (outputFile : PPath) (includes : List Entry) (optRef : Nat) (w : World) :
    Except String Unit × World :=
  let resolvedOutputFile := pathResolve w.cwd outputFile
  let outputDir := pathDirname resolvedOutputFile
  let resolvedIncludes := includes.map (resolveInclude w.cwd)
  let heap1 := heapSet w.heap optRef (singleFileCompilerOptions includes optRef w.heap)
  let compilerOpts := heapGet heap1 optRef
  let w1 := { w with heap := heap1, trace := w.trace ++ [Event.compilerConstructed compilerOpts] }
  let w2 := { w1 with trace := w1.trace ++ [Event.mkdir outputDir] }
  let w3 := { w2 with cwd := outputDir, trace := w2.trace ++ [Event.chdir outputDir] }
  let resolvedIncludes2 := resolvedIncludes.map fun inc =>
    { inc with name := normalizePath (pathRelative outputDir inc.name) }
  match recursiveModuleCompile ext resolvedIncludes2 optRef w3 with
  | (Except.ok tree, w4) =>
    let w5 := { w4 with trace := w4.trace ++ [Event.writeTree tree resolvedOutputFile] }
    (Except.ok (), revertCwd moduleCwd w5)
  | (Except.error e, w4) =>
    (Except.error e, revertCwd moduleCwd w4)

/-- Model of `Promise.all` over already-determined outcomes: resolves
with the list of values when every input resolves, otherwise rejects
with the first rejection. -/
def promiseAll {α : Type} : List (Except String α) → Except String (List α)
  | [] => Except.ok []
  | Except.ok a :: rest => (promiseAll rest).map fun l => a :: l
  | Except.error e :: _ => Except.error e

/-- Embedding of `getPromise` inside `forEachRecursiveModuleCompile`
(source lines 65–70): compile the one entry through
`recursiveModuleCompile` and on success write its tree to
`path.join(outputDir, input.name)`. -/
def getPromise (ext : LoaderExternals) (outputDir : PPath) (optRef : Nat)
    (input : Entry) (w : World) : Except String Unit × World :=
  match recursiveModuleCompile ext [input] optRef w with
  | (Except.ok tree, w1) =>
    let outputFileName := pathJoin outputDir input.name
    (Except.ok (), { w1 with trace := w1.trace ++ [Event.writeTree tree outputFileName] })
  | (Except.error e, w1) => (Except.error e, w1)

/-- Embedding of `forEachRecursiveModuleCompile` (source lines 62–72):
resolve the output directory, construct one compiler from the original
options, start every entry's single-entry pipeline independently
(`includes.map(getPromise)`), and aggregate with `Promise.all`.  The
concurrent chains are modelled as independent runs from the shared
pre-call state (they interleave on one cooperative scheduler and no
chain mutates state another chain reads); the second component retains
each entry's own outcome and final state, the first is the aggregate
the caller observes. -/
def forEachRecursiveModuleCompile (ext : LoaderExternals) (outputDirArg : PPath)
    (includes : List Entry) (optRef : Nat) (w : World) :
    Except String (List Unit) × List (Except String Unit × World) :=
  let outputDir := pathResolve w.cwd outputDirArg
  let w1 := { w with trace := w.trace ++ [Event.compilerConstructed (heapGet w.heap optRef)] }
  let perEntry := includes.map fun input => getPromise ext outputDir optRef input w1
  (promiseAll (perEntry.map Prod.fst), perEntry)

/-- The names of the loads initiated in a trace, in initiation
order. -/
def startedNames (tr : List Event) : List PPath :=
  tr.filterMap fun ev => match ev with
    | Event.loadStarted n _ _ => some n
    | _ => none

/-- The heap references of the per-load options copies handed to the
loader, in initiation order. -/
def startedRefs (tr : List Event) : List Nat :=
  tr.filterMap fun ev => match ev with
    | Event.loadStarted _ _ lo => some lo.traceurOptionsRef
    | _ => none

/-- The contents of the per-load options copies at hand-off time, in
initiation order. -/
def startedSnapshots (tr : List Event) : List OptionsData :=
  tr.filterMap fun ev => match ev with
    | Event.loadStarted _ _ lo => some lo.traceurOptions
    | _ => none

/-- The elements one entry contributes to the session when the loader
appends `elemsOf name` for it and the load succeeds: the loader's
elements followed by the evaluation marker exactly when the entry is a
module and the modules mode is `"register"`.  Used to state order
preservation. -/
def entryBlock (ext : LoaderExternals) (rn : Option String) (opts : OptionsData)
    (elemsOf : PPath → List Element) (ent : Entry) : List Element :=
  elemsOf ent.name ++
    (if !(ent.type == "script") && (opts.modules == some "register")
      then [Element.evaluationMarker (ext.normalize ent.name rn)] else [])

/-! Concrete sample values used by witnesses and counterexamples. -/

/-- A loader that appends nothing and always settles successfully. -/
def extOk : LoaderExternals :=
  ⟨fun _ _ _ => ([], Except.ok ()), fun _ _ => "norm"⟩

/-- A loader that appends one element tagged with the entry name and
always settles successfully. -/
def extTagged : LoaderExternals :=
  ⟨fun n _ _ => ([Element.compiled (String.intercalate "/" n.segs)], Except.ok ()),
   fun _ _ => "norm"⟩

/-- A loader that rejects exactly the entry named `/bad`, appending
nothing, and otherwise behaves like `extTagged`. -/
def extFailBad : LoaderExternals :=
  ⟨fun n _ _ =>
    if n.segs = ["bad"] then ([], Except.error "boom")
    else ([Element.compiled (String.intercalate "/" n.segs)], Except.ok ()),
   fun _ _ => "norm"⟩

/-- A loader that rejects every entry with the error `"boom"`. -/
def extFailAll : LoaderExternals :=
  ⟨fun _ _ _ => ([], Except.error "boom"), fun _ _ => "norm"⟩

/-- A sample output directory. -/
def dirOut : PPath := ⟨true, ["out"]⟩

/-- An initial world with one options object on the heap. -/
def w0 (opts : OptionsData) : World :=
  ⟨⟨true, ["base"]⟩, [opts], [], []⟩

/-- Sample options with a dependency target set. -/
def optsDep : OptionsData := { depTarget := some "tgt" }

/-- Sample options with `modules = "register"` and a referrer. -/
def optsReg : OptionsData := { modules := some "register", referrer := some "main" }

/-- A sample module entry. -/
def entX : Entry := ⟨⟨true, ["x.js"]⟩, "module"⟩

/-- A second sample module entry. -/
def entY : Entry := ⟨⟨true, ["y.js"]⟩, "module"⟩

/-- The module entry rejected by `extFailBad`. -/
def entBad : Entry := ⟨⟨true, ["bad"]⟩, "module"⟩

/-- A sample script entry. -/
def entScript : Entry := ⟨⟨true, ["s.js"]⟩, "script"⟩

/-! Path normalization lemmas. -/

theorem normStep_good (acc : List String) (seg : String) (h : goodSeg seg) :
    normStep acc seg = acc ++ [seg] := by
  rcases h with ⟨h1, h2, h3⟩
  unfold normStep
  rw [if_neg (by tauto), if_neg h3]

theorem goodSeg_of_mem_normStep (acc : List String) (seg : String)
    (h : ∀ s ∈ acc, goodSeg s) : ∀ s ∈ normStep acc seg, goodSeg s := by
  intro s hs
  unfold normStep at hs
  by_cases h1 : seg = "" ∨ seg = "."
  · rw [if_pos h1] at hs
    exact h s hs
  · rw [if_neg h1] at hs
    by_cases h2 : seg = ".."
    · rw [if_pos h2] at hs
      exact h s ((List.dropLast_sublist acc).subset hs)
    · rw [if_neg h2] at hs
      rcases List.mem_append.1 hs with h' | h'
      · exact h s h'
      · rw [List.mem_singleton] at h'
        subst h'
        exact ⟨fun hh => h1 (Or.inl hh), fun hh => h1 (Or.inr hh), h2⟩

theorem foldl_normStep_good : ∀ (segs acc : List String), (∀ s ∈ segs, goodSeg s) →
    segs.foldl normStep acc = acc ++ segs
  | [], acc, _ => by simp
  | seg :: rest, acc, h => by
    rw [List.foldl_cons, normStep_good acc seg (h seg (by simp)),
      foldl_normStep_good rest (acc ++ [seg]) (fun s hs => h s (by simp [hs]))]
    simp

theorem goodSeg_of_mem_foldl : ∀ (segs acc : List String), (∀ s ∈ acc, goodSeg s) →
    ∀ s ∈ segs.foldl normStep acc, goodSeg s
  | [], acc, h => by simpa using h
  | seg :: rest, acc, h => by
    rw [List.foldl_cons]
    exact goodSeg_of_mem_foldl rest _ (goodSeg_of_mem_normStep acc seg h)

theorem goodSeg_of_mem_normSegs (l : List String) : ∀ s ∈ normSegs l, goodSeg s :=
  goodSeg_of_mem_foldl l [] (by simp)

theorem normSegs_of_good (l : List String) (h : ∀ s ∈ l, goodSeg s) : normSegs l = l := by
  unfold normSegs
  rw [foldl_normStep_good l [] h]
  simp

theorem normSegs_normSegs (l : List String) : normSegs (normSegs l) = normSegs l :=
  normSegs_of_good _ (goodSeg_of_mem_normSegs l)

theorem pathResolve_pathResolve (cwd cwd2 p : PPath) :
    pathResolve cwd (pathResolve cwd2 p) = pathResolve cwd2 p := by
  unfold pathResolve
  simp [normSegs_normSegs]

theorem pathResolve_of_normal : ∀ (cwd p : PPath), p.abs = true →
    (∀ s ∈ p.segs, goodSeg s) → pathResolve cwd p = p
  | _, ⟨true, segs⟩, _, h => by
    simp [pathResolve, normSegs_of_good segs h]

theorem resolveInclude_resolveInclude (cwd cwd2 : PPath) (inc : Entry) :
    resolveInclude cwd (resolveInclude cwd2 inc) = resolveInclude cwd2 inc := by
  simp [resolveInclude, pathResolve_pathResolve]

/-- Claim C9 counterexample: the entry named by the absolute path
`/a/../b` is changed by the resolution step (it is normalized to
`/b`), so re-resolving an arbitrary absolute path is not a no-op. -/
theorem claim_c9_counterexample :
    (Entry.mk ⟨true, ["a", "..", "b"]⟩ "module").name.abs = true ∧
    resolveInclude ⟨true, []⟩ (Entry.mk ⟨true, ["a", "..", "b"]⟩ "module") ≠
      Entry.mk ⟨true, ["a", "..", "b"]⟩ "module" := by
  constructor
  · rfl
  · decide

/-- Claim C9 (amended): the entry-name resolution step
(`include.name = path.resolve(include.name)`) is idempotent — applying
it to its own output (under any ambient directory) leaves the entry
unchanged — and it is a no-op exactly on names that are absolute paths
in normal form (no empty, `.` or `..` segments), which covers every
already-resolved name.  The step is a pure function of the entry and
the ambient directory: it performs no I/O by construction. -/
theorem claim_c9_resolution_idempotent :
    (∀ (cwd cwd2 : PPath) (inc : Entry),
      resolveInclude cwd (resolveInclude cwd2 inc) = resolveInclude cwd2 inc) ∧
    (∀ (cwd : PPath) (inc : Entry), inc.name.abs = true →
      (∀ s ∈ inc.name.segs, goodSeg s) → resolveInclude cwd inc = inc) := by
  constructor
  · exact resolveInclude_resolveInclude
  · intro cwd inc habs hgood
    have h := pathResolve_of_normal cwd inc.name habs hgood
    cases inc
    simp only [resolveInclude]
    rw [h]

/-- Claim C9 witness: a concrete normal-form absolute entry name is
left unchanged by the resolution step. -/
theorem claim_c9_witness :
    ((Entry.mk ⟨true, ["a", "b"]⟩ "module").name.abs = true ∧
      (∀ s ∈ (Entry.mk ⟨true, ["a", "b"]⟩ "module").name.segs, goodSeg s)) ∧
    resolveInclude ⟨true, ["w"]⟩ (Entry.mk ⟨true, ["a", "b"]⟩ "module") =
      Entry.mk ⟨true, ["a", "b"]⟩ "module" :=
  ⟨⟨rfl, by decide⟩,
    claim_c9_resolution_idempotent.2 ⟨true, ["w"]⟩ (Entry.mk ⟨true, ["a", "b"]⟩ "module")
      rfl (by decide)⟩

/-! Heap lemmas. -/

theorem heapGet_append (h l : List OptionsData) (r : Nat) (hr : r < h.length) :
    heapGet (h ++ l) r = heapGet h r :=
  List.getD_append h l default r hr

theorem heapGet_heapSet_self (h : List OptionsData) (r : Nat) (v : OptionsData)
    (hr : r < h.length) : heapGet (heapSet h r v) r = v := by
  simp [heapGet, heapSet, List.getD, List.getElem?_set, hr]

theorem heapGet_heapSet_ne (h : List OptionsData) (r r' : Nat) (v : OptionsData)
    (hne : r ≠ r') : heapGet (heapSet h r v) r' = heapGet h r' := by
  simp [heapGet, heapSet, List.getD, List.getElem?_set, hne]

theorem heapSet_length (h : List OptionsData) (r : Nat) (v : OptionsData) :
    (heapSet h r v).length = h.length := by
  simp [heapSet]

/-! Basic state lemmas for `loadInput` and the sequencer. -/

theorem loadInput_state (ext : LoaderExternals) (rn : Option String) (r : Nat)
    (input : Entry) (w : World) (res1 : Except String Unit) (w1 : World)
    (h : loadInput ext rn r input w = (res1, w1)) :
    w1.heap = w.heap ++ [heapGet w.heap r] ∧
    w1.cwd = w.cwd ∧
    w1.trace = w.trace ++
      [Event.loadStarted input.name (input.type == "script")
        ⟨rn, w.heap.length, heapGet w.heap r⟩] := by
  have h2 : w1 = (loadInput ext rn r input w).2 := by rw [h]
  subst h2
  simp only [loadInput]
  cases hbeh : ext.beh input.name (input.type == "script")
      ⟨rn, w.heap.length, heapGet w.heap r⟩ with
  | mk elems res =>
    cases res <;> simp [appendEvaluateModule] <;> split <;> simp

theorem sequencePromises_world (ext : LoaderExternals) (rn : Option String) (r : Nat) :
    ∀ (list : List Entry) (w : World) (res : Except String Unit) (w' : World),
    sequencePromises list (loadInput ext rn r) w = (res, w') →
    (∃ t, w'.trace = w.trace ++ t) ∧ w'.cwd = w.cwd ∧
      w.heap.length ≤ w'.heap.length ∧
      (r < w.heap.length → heapGet w'.heap r = heapGet w.heap r)
  | [], w, res, w', h => by
    simp only [sequencePromises] at h
    injection h with h1 h2
    subst h2
    exact ⟨⟨[], by simp⟩, rfl, le_refl _, fun _ => rfl⟩
  | item :: rest, w, res, w', h => by
    simp only [sequencePromises] at h
    rcases h1 : loadInput ext rn r item w with ⟨res1, w1⟩
    obtain ⟨hheap, hcwd, htrace⟩ := loadInput_state ext rn r item w res1 w1 h1
    cases res1 with
    | ok u =>
      rw [h1] at h
      obtain ⟨⟨t, ht⟩, hc, hl, hg⟩ := sequencePromises_world ext rn r rest w1 res w' h
      refine ⟨⟨_, by rw [ht, htrace, List.append_assoc]⟩, by rw [hc, hcwd], ?_, ?_⟩
      · calc w.heap.length ≤ w1.heap.length := by simp [hheap]
          _ ≤ w'.heap.length := hl
      · intro hr
        have hr1 : r < w1.heap.length := by
          simp only [hheap, List.length_append]
          omega
        rw [hg hr1, hheap, heapGet_append _ _ _ hr]
    | error e =>
      rw [h1] at h
      injection h with h2 h3
      subst h3
      exact ⟨⟨_, htrace⟩, hcwd, by simp [hheap],
        fun hr => by rw [hheap, heapGet_append _ _ _ hr]⟩

theorem recursiveModuleCompile_world (ext : LoaderExternals) (entries : List Entry)
    (r : Nat) (w : World) (res : Except String (Option Tree)) (w' : World)
    (h : recursiveModuleCompile ext entries r w = (res, w')) :
    (∃ t, w'.trace = w.trace ++ t) ∧ w'.cwd = w.cwd ∧
      w.heap.length ≤ w'.heap.length ∧
      (r < w.heap.length → heapGet w'.heap r = heapGet w.heap r) := by
  simp only [recursiveModuleCompile] at h
  rcases hseq : sequencePromises entries (loadInput ext (heapGet w.heap r).referrer r) { w with elements := [], trace := w.trace ++ [Event.sessionStarted (pathResolve w.cwd ⟨false, ["."]⟩)] } with ⟨res0, w1⟩
  rw [hseq] at h
  obtain ⟨⟨t, ht⟩, hc, hl, hg⟩ := sequencePromises_world ext (heapGet w.heap r).referrer r
    entries _ res0 w1 hseq
  dsimp only at ht hc hl hg
  have hw1 : w1 = w' := by
    cases res0 with
    | ok u =>
      by_cases hd : (heapGet w.heap r).depTarget.isSome
      · simp [hd] at h
        exact h.2
      · simp [hd] at h
        exact h.2
    | error e =>
      exact congrArg Prod.snd h
  subst hw1
  exact ⟨⟨_, by rw [ht, List.append_assoc]⟩, hc, hl, hg⟩

/-- Claim C1 (amended): whether the compile resolves or rejects, the
ambient working directory after
`recursiveModuleCompileToSingleFile` settles equals the directory
captured at module load time (`var cwd = process.cwd()`), the
restoration being performed by the settlement handlers themselves; in
particular, whenever the pre-call ambient directory still equals that
captured directory — i.e. the caller has not changed directory since
the module was loaded — the post-call directory equals the pre-call
directory. -/
theorem claim_c1_directory_restored (ext : LoaderExternals) (moduleCwd outputFile : PPath)
    (includes : List Entry) (optRef : Nat) (w : World) :
    ((recursiveModuleCompileToSingleFile ext moduleCwd outputFile includes optRef w).2.cwd
      = moduleCwd) ∧
    (w.cwd = moduleCwd →
      (recursiveModuleCompileToSingleFile ext moduleCwd outputFile includes optRef w).2.cwd
        = w.cwd) := by
  have h : (recursiveModuleCompileToSingleFile ext moduleCwd outputFile includes
      optRef w).2.cwd = moduleCwd := by
    simp only [recursiveModuleCompileToSingleFile]
    split <;> simp [revertCwd]
  exact ⟨h, fun hw => h.trans hw.symm⟩

/-- Claim C1 counterexample: if the ambient directory at call time
(`/callsite`) differs from the directory captured at module load
(`/other`), the promise resolves but the post-call ambient directory
is the module-load directory, not the pre-call one — the claim as
stated fails. -/
theorem claim_c1_counterexample :
    (recursiveModuleCompileToSingleFile extOk ⟨true, ["other"]⟩ ⟨true, ["out", "b.js"]⟩
        [Entry.mk ⟨true, ["x.js"]⟩ "module"] 0 (w0 {})).1 = Except.ok () ∧
    ¬ (recursiveModuleCompileToSingleFile extOk ⟨true, ["other"]⟩ ⟨true, ["out", "b.js"]⟩
        [Entry.mk ⟨true, ["x.js"]⟩ "module"] 0 (w0 {})).2.cwd = (w0 {}).cwd := by
  decide

/-- Claim C1 witness: with the pre-call directory equal to the
captured module-load directory, the post-call directory equals the
pre-call directory. -/
theorem claim_c1_witness :
    (w0 {}).cwd = ⟨true, ["base"]⟩ ∧
    (recursiveModuleCompileToSingleFile extOk ⟨true, ["base"]⟩ ⟨true, ["out", "b.js"]⟩
        [Entry.mk ⟨true, ["x.js"]⟩ "module"] 0 (w0 {})).2.cwd = (w0 {}).cwd :=
  ⟨rfl, (claim_c1_directory_restored extOk ⟨true, ["base"]⟩ ⟨true, ["out", "b.js"]⟩
      [Entry.mk ⟨true, ["x.js"]⟩ "module"] 0 (w0 {})).2 rfl⟩

/-- Claim C8: in the single-file strategy the `bundle` option passed
to the compiler (`options.bundle = includes.length > 1` followed by
`new NodeCompiler(options)`) is `true` exactly when more than one
entry is supplied, and `false` when exactly one entry is supplied; the
compiler really is constructed with exactly these options during the
call. -/
theorem claim_c8_bundle_flag (includes : List Entry) (optRef : Nat)
    (heap : List OptionsData) (hr : optRef < heap.length) :
    ((singleFileCompilerOptions includes optRef heap).bundle = true ↔
      1 < includes.length) ∧
    (includes.length = 1 → (singleFileCompilerOptions includes optRef heap).bundle = false) ∧
    (∀ (ext : LoaderExternals) (moduleCwd outputFile : PPath) (w : World), w.heap = heap →
      Event.compilerConstructed (singleFileCompilerOptions includes optRef heap) ∈
        (recursiveModuleCompileToSingleFile ext moduleCwd outputFile includes optRef w).2.trace) := by
  refine ⟨by simp [singleFileCompilerOptions], ?_, ?_⟩
  · intro h1
    simp [singleFileCompilerOptions, h1]
  · intro ext moduleCwd outputFile w hw
    subst hw
    simp only [recursiveModuleCompileToSingleFile, heapGet_heapSet_self _ _ _ hr]
    split <;> rename_i x w4 heq
    · obtain ⟨⟨t, ht⟩, _, _, _⟩ := recursiveModuleCompile_world _ _ _ _ _ _ heq
      dsimp only at ht
      simp [revertCwd, ht, List.mem_append]
    · obtain ⟨⟨t, ht⟩, _, _, _⟩ := recursiveModuleCompile_world _ _ _ _ _ _ heq
      dsimp only at ht
      simp [revertCwd, ht, List.mem_append]

/-- Claim C8 witness: with two entries the derived bundle flag is
`true`. -/
theorem claim_c8_witness :
    (0 < [({} : OptionsData)].length) ∧
    ((singleFileCompilerOptions [entX, entY] 0 [({} : OptionsData)]).bundle = true ↔
      1 < [entX, entY].length) :=
  ⟨by decide, (claim_c8_bundle_flag [entX, entY] 0 [{}] (by decide)).1⟩

/-! Sequencing lemmas for claim C2. -/

theorem startedNames_append (t1 t2 : List Event) :
    startedNames (t1 ++ t2) = startedNames t1 ++ startedNames t2 := by
  simp [startedNames, List.filterMap_append]

theorem startedNames_loadStarted (n : PPath) (a : Bool) (lo : LoadOptions) :
    startedNames [Event.loadStarted n a lo] = [n] := by
  simp [startedNames]

theorem seq_ok_startedNames (ext : LoaderExternals) (rn : Option String) (r : Nat) :
    ∀ (list : List Entry) (w : World) (u : Unit) (w' : World),
    sequencePromises list (loadInput ext rn r) w = (Except.ok u, w') →
    startedNames w'.trace = startedNames w.trace ++ list.map Entry.name
  | [], w, u, w', h => by
    simp only [sequencePromises] at h
    have hw : w = w' := congrArg Prod.snd h
    subst hw
    simp
  | item :: rest, w, u, w', h => by
    simp only [sequencePromises] at h
    rcases h1 : loadInput ext rn r item w with ⟨res1, w1⟩
    rw [h1] at h
    cases res1 with
    | ok u1 =>
      obtain ⟨_, _, htrace⟩ := loadInput_state ext rn r item w _ _ h1
      have ih := seq_ok_startedNames ext rn r rest w1 u w' h
      rw [ih, htrace, startedNames_append, startedNames_loadStarted]
      simp
    | error e2 =>
      simp at h

theorem seq_error_startedNames (ext : LoaderExternals) (rn : Option String) (r : Nat) :
    ∀ (list : List Entry) (w : World) (e : String) (w' : World),
    sequencePromises list (loadInput ext rn r) w = (Except.error e, w') →
    ∃ k, ∃ hk : k < list.length,
      startedNames w'.trace = startedNames w.trace ++ (list.take (k+1)).map Entry.name ∧
      ∃ wmid, sequencePromises (list.take k) (loadInput ext rn r) w = (Except.ok (), wmid) ∧
        loadInput ext rn r (list.get ⟨k, hk⟩) wmid = (Except.error e, w')
  | [], w, e, w', h => by
    simp only [sequencePromises] at h
    simp at h
  | item :: rest, w, e, w', h => by
    simp only [sequencePromises] at h
    rcases h1 : loadInput ext rn r item w with ⟨res1, w1⟩
    rw [h1] at h
    obtain ⟨_, _, htrace⟩ := loadInput_state ext rn r item w _ _ h1
    cases res1 with
    | ok u1 =>
      obtain ⟨k, hk, hsn, wmid, hmid, hfail⟩ := seq_error_startedNames ext rn r rest w1 e w' h
      refine ⟨k+1, by simpa using Nat.succ_lt_succ hk, ?_, wmid, ?_, ?_⟩
      · rw [hsn, htrace, startedNames_append, startedNames_loadStarted]
        simp
      · simp only [List.take_succ_cons, sequencePromises, h1]
        cases u1
        exact hmid
      · simpa using hfail
    | error e2 =>
      rw [Prod.mk.injEq] at h
      obtain ⟨hf, hs⟩ := h
      rw [Except.error.injEq] at hf
      subst hf
      subst hs
      refine ⟨0, by simp, ?_, w, by simp [sequencePromises], by simpa using h1⟩
      rw [htrace, startedNames_append, startedNames_loadStarted]
      simp

/-- Claim C2: the sequencer over `loadInput` processes entries
strictly in array order — the trace of initiated loads after a
successful run is exactly the input list of names appended in order,
and after a rejected run it is exactly the names of the entries up to
and including the first failing one (later entries are never
initiated), the chain rejecting with that same entry's error and
final state. -/
theorem claim_c2_sequenced (ext : LoaderExternals) (rn : Option String) (r : Nat)
    (list : List Entry) (w : World) :
    (∀ (u : Unit) (w' : World),
      sequencePromises list (loadInput ext rn r) w = (Except.ok u, w') →
      startedNames w'.trace = startedNames w.trace ++ list.map Entry.name) ∧
    (∀ (e : String) (w' : World),
      sequencePromises list (loadInput ext rn r) w = (Except.error e, w') →
      ∃ k, ∃ hk : k < list.length,
        startedNames w'.trace = startedNames w.trace ++ (list.take (k+1)).map Entry.name ∧
        ∃ wmid, sequencePromises (list.take k) (loadInput ext rn r) w = (Except.ok (), wmid) ∧
          loadInput ext rn r (list.get ⟨k, hk⟩) wmid = (Except.error e, w')) :=
  ⟨fun u w' h => seq_ok_startedNames ext rn r list w u w' h,
   fun e w' h => seq_error_startedNames ext rn r list w e w' h⟩

/-- Claim C2 witness: with three entries whose second load rejects,
exactly the first two loads are initiated, the first succeeds, the
second rejects with the chain's error. -/
theorem claim_c2_witness :
    ∃ k, ∃ hk : k < [entX, entBad, entY].length,
      startedNames (sequencePromises [entX, entBad, entY]
          (loadInput extFailBad none 0) (w0 {})).2.trace
        = startedNames (w0 {}).trace ++ (([entX, entBad, entY].take (k+1)).map Entry.name) ∧
      ∃ wmid, sequencePromises ([entX, entBad, entY].take k)
          (loadInput extFailBad none 0) (w0 {}) = (Except.ok (), wmid) ∧
        loadInput extFailBad none 0 ([entX, entBad, entY].get ⟨k, hk⟩) wmid
          = (Except.error "boom",
            (sequencePromises [entX, entBad, entY] (loadInput extFailBad none 0) (w0 {})).2) :=
  (claim_c2_sequenced extFailBad none 0 [entX, entBad, entY] (w0 {})).2 "boom"
    (sequencePromises [entX, entBad, entY] (loadInput extFailBad none 0) (w0 {})).2
    (by decide)

/-! Element-accumulation lemmas for claims C3 and C6. -/

theorem loadInput_ok (ext : LoaderExternals) (rn : Option String) (r : Nat)
    (input : Entry) (w : World) (elemsOf : PPath → List Element)
    (hbeh : ext.beh input.name (input.type == "script")
      ⟨rn, w.heap.length, heapGet w.heap r⟩ = (elemsOf input.name, Except.ok ())) :
    loadInput ext rn r input w = (Except.ok (),
      { w with
        heap := w.heap ++ [heapGet w.heap r]
        elements := w.elements ++ entryBlock ext rn (heapGet w.heap r) elemsOf input
        trace := w.trace ++ [Event.loadStarted input.name (input.type == "script")
          ⟨rn, w.heap.length, heapGet w.heap r⟩] }) := by
  simp only [loadInput, hbeh]
  by_cases hc : (!(input.type == "script") && ((heapGet w.heap r).modules == some "register"))
    = true
  · simp [hc, appendEvaluateModule, entryBlock]
  · simp [hc, entryBlock]

theorem seq_elements_uniform (ext : LoaderExternals) (rn : Option String) (r : Nat)
    (elemsOf : PPath → List Element)
    (hbeh : ∀ n b lo, ext.beh n b lo = (elemsOf n, Except.ok ())) :
    ∀ (list : List Entry) (w : World), r < w.heap.length →
    ∃ w', sequencePromises list (loadInput ext rn r) w = (Except.ok (), w') ∧
      w'.elements = w.elements ++
        list.flatMap (entryBlock ext rn (heapGet w.heap r) elemsOf) ∧
      heapGet w'.heap r = heapGet w.heap r ∧ r < w'.heap.length
  | [], w, hr => ⟨w, rfl, by simp, rfl, hr⟩
  | item :: rest, w, hr => by
    have hli := loadInput_ok ext rn r item w elemsOf (hbeh _ _ _)
    have hr1 : r < (w.heap ++ [heapGet w.heap r]).length := by
      simp only [List.length_append]
      omega
    obtain ⟨w', hseq, helems, hget, hlt⟩ :=
      seq_elements_uniform ext rn r elemsOf hbeh rest
        { w with
          heap := w.heap ++ [heapGet w.heap r]
          elements := w.elements ++ entryBlock ext rn (heapGet w.heap r) elemsOf item
          trace := w.trace ++ [Event.loadStarted item.name (item.type == "script")
            ⟨rn, w.heap.length, heapGet w.heap r⟩] } hr1
    refine ⟨w', ?_, ?_, ?_, hlt⟩
    · simp only [sequencePromises, hli]
      exact hseq
    · rw [helems]
      dsimp only
      rw [heapGet_append _ _ _ hr]
      simp [List.append_assoc]
    · rw [hget]
      dsimp only
      exact heapGet_append _ _ _ hr

/-- Claim C3: when the loader contributes, for every entry, only that
entry's own elements (a function of the entry name alone — the
no-inter-dependency hypothesis) and every load succeeds, the merged
tree returned by `recursiveModuleCompile` is exactly the concatenation
of the per-entry element blocks in input order — the elements appear
in the same relative order as the input entry list, for every entry
list. -/
theorem claim_c3_order_preserved (ext : LoaderExternals) (r : Nat)
    (elemsOf : PPath → List Element)
    (hbeh : ∀ n b lo, ext.beh n b lo = (elemsOf n, Except.ok ()))
    (entries : List Entry) (w : World) (hr : r < w.heap.length)
    (hdep : (heapGet w.heap r).depTarget = none) :
    ∃ w', recursiveModuleCompile ext entries r w =
      (Except.ok (some (toTree (entries.flatMap
        (entryBlock ext (heapGet w.heap r).referrer (heapGet w.heap r) elemsOf)))), w') := by
  simp only [recursiveModuleCompile]
  obtain ⟨w', hseq, helems, hget, hlt⟩ :=
    seq_elements_uniform ext (heapGet w.heap r).referrer r elemsOf hbeh entries
      { w with elements := [],
               trace := w.trace ++ [Event.sessionStarted (pathResolve w.cwd ⟨false, ["."]⟩)] }
      hr
  refine ⟨w', ?_⟩
  rw [hseq]
  dsimp only at helems
  simp [hdep, helems]

/-- Claim C3 witness: two independent module entries produce a merged
tree whose elements are the two per-entry blocks in input order. -/
theorem claim_c3_witness :
    0 < (w0 {}).heap.length ∧ (heapGet (w0 {}).heap 0).depTarget = none ∧
    ∃ w', recursiveModuleCompile extTagged [entX, entY] 0 (w0 {}) =
      (Except.ok (some (toTree ([entX, entY].flatMap
        (entryBlock extTagged (heapGet (w0 {}).heap 0).referrer (heapGet (w0 {}).heap 0)
          (fun n => [Element.compiled (String.intercalate "/" n.segs)]))))), w') :=
  ⟨by decide, by decide,
    claim_c3_order_preserved extTagged 0
      (fun n => [Element.compiled (String.intercalate "/" n.segs)])
      (fun _ _ _ => rfl) [entX, entY] (w0 {}) (by decide) (by decide)⟩

/-- Claim C6: for a module entry under `modules = "register"`, after
the import settles successfully the session's element list gains the
loader's elements followed by an evaluation marker built from the
entry name normalized against the referrer name (which
`recursiveModuleCompile` takes from `options.referrer`); for a script
entry the loader is invoked in load-as-script mode and no marker is
appended. -/
theorem claim_c6_evaluation_marker (ext : LoaderExternals) (rn : Option String) (r : Nat)
    (input : Entry) (w : World) (elems : List Element) :
    (input.type ≠ "script" → (heapGet w.heap r).modules = some "register" →
      ext.beh input.name false ⟨rn, w.heap.length, heapGet w.heap r⟩ = (elems, Except.ok ()) →
      ∃ w', loadInput ext rn r input w = (Except.ok (), w') ∧
        w'.elements = w.elements ++ elems ++
          [Element.evaluationMarker (ext.normalize input.name rn)] ∧
        w'.trace = w.trace ++ [Event.loadStarted input.name false
          ⟨rn, w.heap.length, heapGet w.heap r⟩]) ∧
    (input.type = "script" →
      ext.beh input.name true ⟨rn, w.heap.length, heapGet w.heap r⟩ = (elems, Except.ok ()) →
      ∃ w', loadInput ext rn r input w = (Except.ok (), w') ∧
        w'.elements = w.elements ++ elems ∧
        w'.trace = w.trace ++ [Event.loadStarted input.name true
          ⟨rn, w.heap.length, heapGet w.heap r⟩]) ∧
    ((heapGet w.heap r).modules = some "register" → (heapGet w.heap r).depTarget = none →
      input.type ≠ "script" →
      ext.beh input.name false
          ⟨(heapGet w.heap r).referrer, w.heap.length, heapGet w.heap r⟩
        = (elems, Except.ok ()) →
      (recursiveModuleCompile ext [input] r w).1 = Except.ok (some (toTree (elems ++
        [Element.evaluationMarker (ext.normalize input.name (heapGet w.heap r).referrer)])))) := by
  refine ⟨?_, ?_, ?_⟩
  · intro h1 h2 h3
    have hb : (input.type == "script") = false := by simpa using h1
    have h3' : ext.beh input.name (input.type == "script")
        ⟨rn, w.heap.length, heapGet w.heap r⟩ = ((fun _ => elems) input.name, Except.ok ()) := by
      rw [hb]
      exact h3
    refine ⟨_, loadInput_ok ext rn r input w (fun _ => elems) h3', ?_, ?_⟩
    · simp [entryBlock, hb, h2, List.append_assoc]
    · simp [hb]
  · intro h1 h2
    have hb : (input.type == "script") = true := by simpa using h1
    have h2' : ext.beh input.name (input.type == "script")
        ⟨rn, w.heap.length, heapGet w.heap r⟩ = ((fun _ => elems) input.name, Except.ok ()) := by
      rw [hb]
      exact h2
    refine ⟨_, loadInput_ok ext rn r input w (fun _ => elems) h2', ?_, ?_⟩
    · simp [entryBlock, hb]
    · simp [hb]
  · intro h2 hd h1 h3
    have hb : (input.type == "script") = false := by simpa using h1
    have h3' : ext.beh input.name (input.type == "script")
        ⟨(heapGet w.heap r).referrer, w.heap.length, heapGet w.heap r⟩
        = ((fun _ => elems) input.name, Except.ok ()) := by
      rw [hb]
      exact h3
    simp only [recursiveModuleCompile]
    have hli := loadInput_ok ext (heapGet w.heap r).referrer r input
      { w with elements := [],
               trace := w.trace ++ [Event.sessionStarted (pathResolve w.cwd ⟨false, ["."]⟩)] }
      (fun _ => elems) h3'
    simp only [sequencePromises, hli]
    simp [hd, entryBlock, hb, h2, toTree]

/-- Claim C6 witness: a concrete module entry under register mode
yields its compiled element followed by the evaluation marker
normalized against the options referrer. -/
theorem claim_c6_witness :
    ((heapGet (w0 optsReg).heap 0).modules = some "register" ∧
      (heapGet (w0 optsReg).heap 0).depTarget = none ∧ entX.type ≠ "script") ∧
    (recursiveModuleCompile extTagged [entX] 0 (w0 optsReg)).1 =
      Except.ok (some (toTree ([Element.compiled "x.js"] ++
        [Element.evaluationMarker (extTagged.normalize entX.name
          (heapGet (w0 optsReg).heap 0).referrer)]))) :=
  ⟨⟨by decide, by decide, by decide⟩,
    (claim_c6_evaluation_marker extTagged none 0 entX (w0 optsReg)
        [Element.compiled "x.js"]).2.2 (by decide) (by decide) (by decide) rfl⟩

/-! Options-copy lemmas for claims C5 and C10. -/

theorem startedRefs_append (t1 t2 : List Event) :
    startedRefs (t1 ++ t2) = startedRefs t1 ++ startedRefs t2 := by
  simp [startedRefs, List.filterMap_append]

theorem startedSnapshots_append (t1 t2 : List Event) :
    startedSnapshots (t1 ++ t2) = startedSnapshots t1 ++ startedSnapshots t2 := by
  simp [startedSnapshots, List.filterMap_append]

theorem sequencePromises_refs (ext : LoaderExternals) (rn : Option String) (r : Nat) :
    ∀ (list : List Entry) (w : World), r < w.heap.length →
    ∀ (res : Except String Unit) (w' : World),
    sequencePromises list (loadInput ext rn r) w = (res, w') →
    ∃ k, startedRefs w'.trace = startedRefs w.trace ++ List.range' w.heap.length k ∧
      startedSnapshots w'.trace = startedSnapshots w.trace ++
        List.replicate k (heapGet w.heap r) ∧
      w'.heap.length = w.heap.length + k
  | [], w, hr, res, w', h => by
    have hw : w = w' := congrArg Prod.snd h
    subst hw
    exact ⟨0, by simp, by simp, by simp⟩
  | item :: rest, w, hr, res, w', h => by
    simp only [sequencePromises] at h
    rcases h1 : loadInput ext rn r item w with ⟨res1, w1⟩
    rw [h1] at h
    obtain ⟨hheap, hcwd, htrace⟩ := loadInput_state ext rn r item w res1 w1 h1
    have hl1 : w1.heap.length = w.heap.length + 1 := by
      simp [hheap]
    have hr1 : r < w1.heap.length := by
      omega
    have hget1 : heapGet w1.heap r = heapGet w.heap r := by
      rw [hheap, heapGet_append _ _ _ hr]
    cases res1 with
    | ok u =>
      obtain ⟨k, hrefs, hsnaps, hlen⟩ := sequencePromises_refs ext rn r rest w1 hr1 res w' h
      refine ⟨k + 1, ?_, ?_, by omega⟩
      · rw [hrefs, htrace, startedRefs_append, hl1]
        have hr' : List.range' w.heap.length (k + 1) =
            w.heap.length :: List.range' (w.heap.length + 1) k := rfl
        rw [hr']
        simp [startedRefs]
      · rw [hsnaps, htrace, startedSnapshots_append, hget1]
        rw [List.replicate_succ]
        simp [startedSnapshots]
    | error e =>
      have hw : w1 = w' := congrArg Prod.snd h
      subst hw
      refine ⟨1, ?_, ?_, by omega⟩
      · rw [htrace, startedRefs_append]
        simp [startedRefs]
      · rw [htrace, startedSnapshots_append]
        simp [startedSnapshots]

theorem recursiveModuleCompile_refs (ext : LoaderExternals) (entries : List Entry)
    (r : Nat) (w : World) (res : Except String (Option Tree)) (w' : World)
    (hr : r < w.heap.length)
    (h : recursiveModuleCompile ext entries r w = (res, w')) :
    ∃ k, startedRefs w'.trace = startedRefs w.trace ++ List.range' w.heap.length k ∧
      startedSnapshots w'.trace = startedSnapshots w.trace ++
        List.replicate k (heapGet w.heap r) ∧
      w'.heap.length = w.heap.length + k := by
  simp only [recursiveModuleCompile] at h
  rcases hseq : sequencePromises entries (loadInput ext (heapGet w.heap r).referrer r) { w with elements := [], trace := w.trace ++ [Event.sessionStarted (pathResolve w.cwd ⟨false, ["."]⟩)] } with ⟨res0, w1⟩
  rw [hseq] at h
  have hw1 : w1 = w' := by
    cases res0 with
    | ok u =>
      by_cases hd : (heapGet w.heap r).depTarget.isSome
      · simp [hd] at h
        exact h.2
      · simp [hd] at h
        exact h.2
    | error e =>
      exact congrArg Prod.snd h
  subst hw1
  obtain ⟨k, h1, h2, h3⟩ := sequencePromises_refs ext (heapGet w.heap r).referrer r entries
    { w with elements := [],
             trace := w.trace ++ [Event.sessionStarted (pathResolve w.cwd ⟨false, ["."]⟩)] }
    hr res0 w1 hseq
  dsimp only at h1 h2 h3
  rw [startedRefs_append] at h1
  rw [startedSnapshots_append] at h2
  refine ⟨k, ?_, ?_, h3⟩
  · rw [h1]
    simp [startedRefs]
  · rw [h2]
    simp [startedSnapshots]

/-- Claim C5: each invocation of `loadInput` during one compile
request hands the external loader its own freshly allocated options
copy — the copy references handed out are the consecutive fresh heap
addresses, hence pairwise distinct and distinct from the original
options object — every copy's contents at hand-off equal the original
options value at the start of the request (the pre-mutation value),
and mutating the object behind any one reference is not observable
through any other reference (two-run noninterference over the
per-entry copies). -/
theorem claim_c5_option_isolation (ext : LoaderExternals) (entries : List Entry)
    (r : Nat) (w : World) (res : Except String (Option Tree)) (w' : World)
    (hr : r < w.heap.length)
    (h : recursiveModuleCompile ext entries r w = (res, w')) :
    ∃ k, startedRefs w'.trace = startedRefs w.trace ++ List.range' w.heap.length k ∧
      startedSnapshots w'.trace = startedSnapshots w.trace ++
        List.replicate k (heapGet w.heap r) ∧
      (List.range' w.heap.length k).Nodup ∧
      (∀ a ∈ List.range' w.heap.length k, r ≠ a) ∧
      (∀ (a b : Nat), a ≠ b → ∀ (v : OptionsData) (hp : List OptionsData),
        heapGet (heapSet hp a v) b = heapGet hp b) := by
  obtain ⟨k, h1, h2, h3⟩ := recursiveModuleCompile_refs ext entries r w res w' hr h
  refine ⟨k, h1, h2, List.nodup_range' _ _ 1 (by decide), ?_,
    fun a b hab v hp => heapGet_heapSet_ne hp a b v hab⟩
  intro a ha
  rw [List.mem_range'_1] at ha
  omega

/-- Claim C5 witness: a two-entry compile hands out the two fresh
copy references following the original options object, with both
snapshots equal to the original options value. -/
theorem claim_c5_witness :
    0 < (w0 {}).heap.length ∧
    ∃ k, startedRefs (recursiveModuleCompile extOk [entX, entY] 0 (w0 {})).2.trace =
        startedRefs (w0 {}).trace ++ List.range' (w0 {}).heap.length k ∧
      startedSnapshots (recursiveModuleCompile extOk [entX, entY] 0 (w0 {})).2.trace =
        startedSnapshots (w0 {}).trace ++ List.replicate k (heapGet (w0 {}).heap 0) ∧
      (List.range' (w0 {}).heap.length k).Nodup ∧
      (∀ a ∈ List.range' (w0 {}).heap.length k, 0 ≠ a) ∧
      (∀ (a b : Nat), a ≠ b → ∀ (v : OptionsData) (hp : List OptionsData),
        heapGet (heapSet hp a v) b = heapGet hp b) :=
  ⟨by decide,
    claim_c5_option_isolation extOk [entX, entY] 0 (w0 {})
      (recursiveModuleCompile extOk [entX, entY] 0 (w0 {})).1
      (recursiveModuleCompile extOk [entX, entY] 0 (w0 {})).2
      (by decide) (by decide)⟩

theorem startedSnapshots_cc (o : OptionsData) :
    startedSnapshots [Event.compilerConstructed o] = [] := rfl

theorem startedSnapshots_mkdir (d : PPath) : startedSnapshots [Event.mkdir d] = [] := rfl

theorem startedSnapshots_chdir (d : PPath) : startedSnapshots [Event.chdir d] = [] := rfl

theorem startedSnapshots_writeTree (tr : Option Tree) (f : PPath) :
    startedSnapshots [Event.writeTree tr f] = [] := rfl

theorem recursiveModuleCompile_newSnapshots (ext : LoaderExternals) (entries : List Entry)
    (r : Nat) (w : World) (res : Except String (Option Tree)) (w' : World)
    (hr : r < w.heap.length)
    (h : recursiveModuleCompile ext entries r w = (res, w')) :
    ∃ t k, w'.trace = w.trace ++ t ∧
      startedSnapshots t = List.replicate k (heapGet w.heap r) := by
  obtain ⟨⟨t, ht⟩, _, _, _⟩ := recursiveModuleCompile_world ext entries r w res w' h
  obtain ⟨k, h1, h2, h3⟩ := recursiveModuleCompile_refs ext entries r w res w' hr h
  refine ⟨t, k, ht, ?_⟩
  rw [ht, startedSnapshots_append] at h2
  exact List.append_cancel_left h2

/-- Claim C10: `recursiveModuleCompileToSingleFile` mutates the
caller's options object in place — after the call the object behind
the caller's reference has `bundle` set to `includes.length > 1` — and
that value flows into every per-entry options copy handed to the
loader during the call. -/
theorem claim_c10_options_mutated (ext : LoaderExternals) (moduleCwd outputFile : PPath)
    (includes : List Entry) (r : Nat) (w : World) (hr : r < w.heap.length) :
    (heapGet (recursiveModuleCompileToSingleFile ext moduleCwd outputFile includes r
        w).2.heap r).bundle = decide (1 < includes.length) ∧
    ∃ t, (recursiveModuleCompileToSingleFile ext moduleCwd outputFile includes r w).2.trace
        = w.trace ++ t ∧
      ∀ o ∈ startedSnapshots t, o.bundle = decide (1 < includes.length) := by
  have hr3 : r < (heapSet w.heap r (singleFileCompilerOptions includes r w.heap)).length := by
    rw [heapSet_length]
    exact hr
  simp only [recursiveModuleCompileToSingleFile]
  split <;> rename_i x w4 heq
  · obtain ⟨_, _, _, hget⟩ := recursiveModuleCompile_world _ _ _ _ _ _ heq
    obtain ⟨t, k, ht, hsnap⟩ := recursiveModuleCompile_newSnapshots _ _ _ _ _ _ hr3 heq
    dsimp only at hget ht hsnap
    rw [heapGet_heapSet_self _ _ _ hr] at hsnap
    constructor
    · dsimp only [revertCwd]
      rw [hget hr3, heapGet_heapSet_self _ _ _ hr]
      simp [singleFileCompilerOptions]
    · dsimp only [revertCwd]
      rw [ht]
      simp only [List.append_assoc]
      refine ⟨_, rfl, ?_⟩
      intro o ho
      simp only [startedSnapshots_append, startedSnapshots_cc, startedSnapshots_mkdir,
        startedSnapshots_chdir, startedSnapshots_writeTree, hsnap, List.nil_append,
        List.append_nil] at ho
      rw [List.eq_of_mem_replicate ho]
      simp [singleFileCompilerOptions]
  · obtain ⟨_, _, _, hget⟩ := recursiveModuleCompile_world _ _ _ _ _ _ heq
    obtain ⟨t, k, ht, hsnap⟩ := recursiveModuleCompile_newSnapshots _ _ _ _ _ _ hr3 heq
    dsimp only at hget ht hsnap
    rw [heapGet_heapSet_self _ _ _ hr] at hsnap
    constructor
    · dsimp only [revertCwd]
      rw [hget hr3, heapGet_heapSet_self _ _ _ hr]
      simp [singleFileCompilerOptions]
    · dsimp only [revertCwd]
      rw [ht]
      simp only [List.append_assoc]
      refine ⟨_, rfl, ?_⟩
      intro o ho
      simp only [startedSnapshots_append, startedSnapshots_cc, startedSnapshots_mkdir,
        startedSnapshots_chdir, startedSnapshots_writeTree, hsnap, List.nil_append,
        List.append_nil] at ho
      rw [List.eq_of_mem_replicate ho]
      simp [singleFileCompilerOptions]

/-- Claim C10 witness: after a two-entry single-file compile the
caller's options object has `bundle = true`. -/
theorem claim_c10_witness :
    0 < (w0 {}).heap.length ∧
    (heapGet (recursiveModuleCompileToSingleFile extOk ⟨true, ["base"]⟩
        ⟨true, ["out", "b.js"]⟩ [entX, entY] 0 (w0 {})).2.heap 0).bundle
      = decide (1 < [entX, entY].length) :=
  ⟨by decide,
    (claim_c10_options_mutated extOk ⟨true, ["base"]⟩ ⟨true, ["out", "b.js"]⟩
      [entX, entY] 0 (w0 {}) (by decide)).1⟩

/-- Claim C4 (amended): with the dependency target set, the result
assembled by `recursiveModuleCompile` is `null` regardless of the
number of entries; however the single-file path does not skip the
write step — on success it invokes the compiler's `writeTreeToFile`
operation with that `null` tree and the resolved output file, so
avoiding a file write is left to the external compiler's handling of
`null`. -/
theorem claim_c4_dep_target :
    (∀ (ext : LoaderExternals) (entries : List Entry) (r : Nat) (w : World)
      (tree : Option Tree) (w' : World),
      (heapGet w.heap r).depTarget.isSome = true →
      recursiveModuleCompile ext entries r w = (Except.ok tree, w') → tree = none) ∧
    (∀ (ext : LoaderExternals) (moduleCwd outputFile : PPath) (includes : List Entry)
      (r : Nat) (w : World), r < w.heap.length →
      (heapGet w.heap r).depTarget.isSome = true →
      (recursiveModuleCompileToSingleFile ext moduleCwd outputFile includes r w).1
        = Except.ok () →
      Event.writeTree none (pathResolve w.cwd outputFile) ∈
        (recursiveModuleCompileToSingleFile ext moduleCwd outputFile includes r w).2.trace) := by
  have hnull : ∀ (ext : LoaderExternals) (entries : List Entry) (r : Nat) (w : World)
      (tree : Option Tree) (w' : World),
      (heapGet w.heap r).depTarget.isSome = true →
      recursiveModuleCompile ext entries r w = (Except.ok tree, w') → tree = none := by
    intro ext entries r w tree w' hd h
    simp only [recursiveModuleCompile] at h
    rcases hseq : sequencePromises entries (loadInput ext (heapGet w.heap r).referrer r) { w with elements := [], trace := w.trace ++ [Event.sessionStarted (pathResolve w.cwd ⟨false, ["."]⟩)] } with ⟨res0, w1⟩
    rw [hseq] at h
    cases res0 with
    | ok u =>
      rw [hd] at h
      simp at h
      exact h.1.symm
    | error e =>
      simp at h
  refine ⟨hnull, ?_⟩
  intro ext moduleCwd outputFile includes r w hr hd hok
  have hr3 : r < (heapSet w.heap r (singleFileCompilerOptions includes r w.heap)).length := by
    rw [heapSet_length]
    exact hr
  have hd3 : (heapGet (heapSet w.heap r (singleFileCompilerOptions includes r w.heap))
      r).depTarget.isSome = true := by
    rw [heapGet_heapSet_self _ _ _ hr]
    simpa [singleFileCompilerOptions] using hd
  simp only [recursiveModuleCompileToSingleFile] at hok ⊢
  rcases hsp : recursiveModuleCompile ext
      (List.map (fun inc => { inc with
        name := normalizePath (pathRelative (pathDirname (pathResolve w.cwd outputFile))
          inc.name) }) (List.map (resolveInclude w.cwd) includes)) r
      { w with
        cwd := pathDirname (pathResolve w.cwd outputFile)
        heap := heapSet w.heap r (singleFileCompilerOptions includes r w.heap)
        trace := w.trace ++ [Event.compilerConstructed (heapGet (heapSet w.heap r
          (singleFileCompilerOptions includes r w.heap)) r)] ++
          [Event.mkdir (pathDirname (pathResolve w.cwd outputFile))] ++
          [Event.chdir (pathDirname (pathResolve w.cwd outputFile))] }
    with ⟨res4, w4⟩
  rw [hsp] at hok ⊢
  cases res4 with
  | ok tree =>
    have htree : tree = none := hnull _ _ _ _ _ _ hd3 hsp
    subst htree
    simp [revertCwd, List.mem_append]
  | error e =>
    simp at hok

/-- Claim C4 counterexample: with the dependency target set, the
single-file path still invokes the compiler's write operation — the
trace of a concrete one-entry compile contains a
`writeTreeToFile(null, resolvedOutputFile)` call, so "no file write is
attempted" fails as stated. -/
theorem claim_c4_counterexample :
    (heapGet (w0 optsDep).heap 0).depTarget.isSome = true ∧
    Event.writeTree none (pathResolve (w0 optsDep).cwd ⟨true, ["out", "b.js"]⟩) ∈
      (recursiveModuleCompileToSingleFile extOk ⟨true, ["base"]⟩ ⟨true, ["out", "b.js"]⟩
        [entX] 0 (w0 optsDep)).2.trace := by
  decide

/-- Claim C4 witness: a two-entry dependency-target compile resolves
and its write step receives the `null` tree. -/
theorem claim_c4_witness :
    (0 < (w0 optsDep).heap.length ∧ (heapGet (w0 optsDep).heap 0).depTarget.isSome = true ∧
      (recursiveModuleCompileToSingleFile extOk ⟨true, ["base"]⟩ ⟨true, ["o.js"]⟩
        [entX, entY] 0 (w0 optsDep)).1 = Except.ok ()) ∧
    Event.writeTree none (pathResolve (w0 optsDep).cwd ⟨true, ["o.js"]⟩) ∈
      (recursiveModuleCompileToSingleFile extOk ⟨true, ["base"]⟩ ⟨true, ["o.js"]⟩
        [entX, entY] 0 (w0 optsDep)).2.trace :=
  ⟨⟨by decide, by decide, by decide⟩,
    claim_c4_dep_target.2 extOk ⟨true, ["base"]⟩ ⟨true, ["o.js"]⟩ [entX, entY] 0
      (w0 optsDep) (by decide) (by decide) (by decide)⟩

/-! Fan-out lemmas for claim C7. -/

theorem sequencePromises_events (ext : LoaderExternals) (rn : Option String) (r : Nat) :
    ∀ (list : List Entry) (w : World) (res : Except String Unit) (w' : World),
    sequencePromises list (loadInput ext rn r) w = (res, w') →
    ∃ t, w'.trace = w.trace ++ t ∧
      ∀ ev ∈ t, ∃ n a lo, ev = Event.loadStarted n a lo
  | [], w, res, w', h => by
    have hw : w = w' := congrArg Prod.snd h
    subst hw
    exact ⟨[], by simp, by simp⟩
  | item :: rest, w, res, w', h => by
    simp only [sequencePromises] at h
    rcases h1 : loadInput ext rn r item w with ⟨res1, w1⟩
    rw [h1] at h
    obtain ⟨_, _, htrace⟩ := loadInput_state ext rn r item w res1 w1 h1
    cases res1 with
    | ok u =>
      obtain ⟨t, ht, hall⟩ := sequencePromises_events ext rn r rest w1 res w' h
      refine ⟨[Event.loadStarted item.name (item.type == "script")
        ⟨rn, w.heap.length, heapGet w.heap r⟩] ++ t, by rw [ht, htrace, List.append_assoc], ?_⟩
      intro ev hev
      rcases List.mem_append.1 hev with h' | h'
      · rw [List.mem_singleton] at h'
        exact ⟨_, _, _, h'⟩
      · exact hall ev h'
    | error e =>
      have hw : w1 = w' := congrArg Prod.snd h
      subst hw
      refine ⟨_, htrace, ?_⟩
      intro ev hev
      rw [List.mem_singleton] at hev
      exact ⟨_, _, _, hev⟩

theorem recursiveModuleCompile_events (ext : LoaderExternals) (entries : List Entry)
    (r : Nat) (w : World) (res : Except String (Option Tree)) (w' : World)
    (h : recursiveModuleCompile ext entries r w = (res, w')) :
    ∃ t, w'.trace = w.trace ++ t ∧
      ∀ ev ∈ t, ∀ (tr : Option Tree) (f : PPath), ev ≠ Event.writeTree tr f := by
  simp only [recursiveModuleCompile] at h
  rcases hseq : sequencePromises entries (loadInput ext (heapGet w.heap r).referrer r) { w with elements := [], trace := w.trace ++ [Event.sessionStarted (pathResolve w.cwd ⟨false, ["."]⟩)] } with ⟨res0, w1⟩
  rw [hseq] at h
  have hw1 : w1 = w' := by
    cases res0 with
    | ok u =>
      by_cases hd : (heapGet w.heap r).depTarget.isSome
      · simp [hd] at h
        exact h.2
      · simp [hd] at h
        exact h.2
    | error e =>
      exact congrArg Prod.snd h
  subst hw1
  obtain ⟨t, ht, hall⟩ := sequencePromises_events ext (heapGet w.heap r).referrer r entries
    { w with elements := [],
             trace := w.trace ++ [Event.sessionStarted (pathResolve w.cwd ⟨false, ["."]⟩)] }
    res0 w1 hseq
  dsimp only at ht
  refine ⟨Event.sessionStarted (pathResolve w.cwd ⟨false, ["."]⟩) :: t, ?_, ?_⟩
  · rw [ht]
    simp
  · intro ev hev tr f
    rcases List.mem_cons.1 hev with h' | h'
    · subst h'
      simp
    · obtain ⟨n, a, lo, he⟩ := hall ev h'
      subst he
      simp

theorem getPromise_ok (ext : LoaderExternals) (od : PPath) (r : Nat) (input : Entry)
    (w1 : World) (u : Unit) (w2 : World)
    (h : getPromise ext od r input w1 = (Except.ok u, w2)) :
    ∃ tree t, w2.trace = w1.trace ++ t ++ [Event.writeTree tree (pathJoin od input.name)] := by
  simp only [getPromise] at h
  rcases hrec : recursiveModuleCompile ext [input] r w1 with ⟨res0, w3⟩
  rw [hrec] at h
  cases res0 with
  | ok tree =>
    obtain ⟨⟨t, ht⟩, _, _, _⟩ := recursiveModuleCompile_world _ _ _ _ _ _ hrec
    have hw : ({ w3 with trace := w3.trace ++
        [Event.writeTree tree (pathJoin od input.name)] } : World) = w2 :=
      congrArg Prod.snd h
    subst hw
    refine ⟨tree, t, ?_⟩
    dsimp only
    rw [ht]
  | error e =>
    simp at h

theorem getPromise_error (ext : LoaderExternals) (od : PPath) (r : Nat) (input : Entry)
    (w1 : World) (e : String) (w2 : World)
    (h : getPromise ext od r input w1 = (Except.error e, w2)) :
    ∃ t, w2.trace = w1.trace ++ t ∧
      ∀ (tr : Option Tree) (f : PPath), Event.writeTree tr f ∉ t := by
  simp only [getPromise] at h
  rcases hrec : recursiveModuleCompile ext [input] r w1 with ⟨res0, w3⟩
  rw [hrec] at h
  cases res0 with
  | ok tree =>
    simp at h
  | error e2 =>
    have hw : w3 = w2 := congrArg Prod.snd h
    subst hw
    obtain ⟨t, ht, hall⟩ := recursiveModuleCompile_events _ _ _ _ _ _ hrec
    exact ⟨t, ht, fun tr f hm => hall _ hm tr f rfl⟩

theorem promiseAll_ok_iff : ∀ (l : List (Except String Unit)),
    (∃ v, promiseAll l = Except.ok v) ↔ ∀ x ∈ l, ∃ a, x = Except.ok a
  | [] => by
    simp [promiseAll]
  | Except.ok a :: rest => by
    constructor
    · rintro ⟨v, hv⟩ x hx
      simp only [promiseAll] at hv
      cases hm : promiseAll rest with
      | ok vr =>
        rcases List.mem_cons.1 hx with h' | h'
        · exact ⟨a, h'⟩
        · exact (promiseAll_ok_iff rest).1 ⟨vr, hm⟩ x h'
      | error er =>
        rw [hm] at hv
        simp [Except.map] at hv
    · intro hall
      obtain ⟨v, hv⟩ := (promiseAll_ok_iff rest).2 fun x hx => hall x (List.mem_cons_of_mem _ hx)
      refine ⟨a :: v, ?_⟩
      simp only [promiseAll, hv]
      rfl
  | Except.error e :: rest => by
    constructor
    · rintro ⟨v, hv⟩
      simp [promiseAll] at hv
    · intro hall
      obtain ⟨a, ha⟩ := hall (Except.error e) (List.mem_cons_self _ _)
      cases ha

theorem promiseAll_first_error : ∀ (l1 : List (Except String Unit)) (e : String)
    (l2 : List (Except String Unit)),
    (∀ x ∈ l1, ∃ a, x = Except.ok a) →
    promiseAll (l1 ++ Except.error e :: l2) = Except.error e
  | [], _, _, _ => rfl
  | x :: rest, e, l2, hall => by
    obtain ⟨a, ha⟩ := hall x (List.mem_cons_self _ _)
    subst ha
    simp only [List.cons_append, promiseAll, List.append_eq]
    rw [promiseAll_first_error rest e l2 fun y hy => hall y (List.mem_cons_of_mem _ hy)]
    rfl

/-- Claim C7 (amended): in the fan-out strategy every entry's
single-entry compile is initiated from the shared pre-call state
regardless of the other entries' outcomes (the per-entry runs are
independent, not sequenced); an entry's own file write occurs exactly
on its own success — another entry's failure neither cancels a
sibling's compile nor suppresses its write; but the aggregate the
caller receives is `Promise.all`'s: the value list on collective
success, or the first rejection alone — per-entry outcomes are not
individually reported. -/
theorem claim_c7_fanout_independent (ext : LoaderExternals) (outputDirArg : PPath)
    (includes : List Entry) (r : Nat) (w : World) :
    ((forEachRecursiveModuleCompile ext outputDirArg includes r w).2.length
      = includes.length) ∧
    (∀ (i : Nat) (hi : i < includes.length),
      ((forEachRecursiveModuleCompile ext outputDirArg includes r w).2)[i]? =
        some (getPromise ext (pathResolve w.cwd outputDirArg) r (includes.get ⟨i, hi⟩)
          { w with trace := w.trace ++ [Event.compilerConstructed (heapGet w.heap r)] })) ∧
    ((forEachRecursiveModuleCompile ext outputDirArg includes r w).1 =
      promiseAll ((forEachRecursiveModuleCompile ext outputDirArg includes r w).2.map
        Prod.fst)) ∧
    (∀ (l : List (Except String Unit)),
      (∃ v, promiseAll l = Except.ok v) ↔ ∀ x ∈ l, ∃ a, x = Except.ok a) ∧
    (∀ (l1 : List (Except String Unit)) (e : String) (l2 : List (Except String Unit)),
      (∀ x ∈ l1, ∃ a, x = Except.ok a) →
      promiseAll (l1 ++ Except.error e :: l2) = Except.error e) ∧
    (∀ (od : PPath) (input : Entry) (w1 : World) (u : Unit) (w2 : World),
      getPromise ext od r input w1 = (Except.ok u, w2) →
      ∃ tree t, w2.trace = w1.trace ++ t ++
        [Event.writeTree tree (pathJoin od input.name)]) ∧
    (∀ (od : PPath) (input : Entry) (w1 : World) (e : String) (w2 : World),
      getPromise ext od r input w1 = (Except.error e, w2) →
      ∃ t, w2.trace = w1.trace ++ t ∧
        ∀ (tr : Option Tree) (f : PPath), Event.writeTree tr f ∉ t) := by
  refine ⟨?_, ?_, rfl, promiseAll_ok_iff, promiseAll_first_error,
    fun od input w1 u w2 h => getPromise_ok ext od r input w1 u w2 h,
    fun od input w1 e w2 h => getPromise_error ext od r input w1 e w2 h⟩
  · simp [forEachRecursiveModuleCompile]
  · intro i hi
    simp [forEachRecursiveModuleCompile, List.getElem?_map, List.getElem?_eq_getElem hi]

/-- Claim C7 counterexample: two fan-out runs over the same two
entries — in one the second entry succeeds, in the other it fails —
produce identical aggregate results for the caller (the first entry's
rejection) although the per-entry outcomes differ, so each entry's
success or failure is not reported to the caller independently per
entry. -/
theorem claim_c7_counterexample :
    ((forEachRecursiveModuleCompile extFailBad dirOut [entBad, entY] 0 (w0 {})).1 =
      (forEachRecursiveModuleCompile extFailAll dirOut [entBad, entY] 0 (w0 {})).1) ∧
    ((forEachRecursiveModuleCompile extFailBad dirOut [entBad, entY] 0 (w0 {})).2.map
        Prod.fst ≠
      (forEachRecursiveModuleCompile extFailAll dirOut [entBad, entY] 0 (w0 {})).2.map
        Prod.fst) := by
  decide

/-- Claim C7 witness: in a concrete two-entry fan-out the first
entry's chain is the independent single-entry pipeline run from the
shared pre-call state. -/
theorem claim_c7_witness :
    0 < [entBad, entY].length ∧
    ((forEachRecursiveModuleCompile extFailBad dirOut [entBad, entY] 0 (w0 {})).2)[0]? =
      some (getPromise extFailBad (pathResolve (w0 {}).cwd dirOut) 0
        ([entBad, entY].get ⟨0, by decide⟩)
        { w0 {} with trace := (w0 {}).trace ++
          [Event.compilerConstructed (heapGet (w0 {}).heap 0)] }) :=
  ⟨by decide,
    (claim_c7_fanout_independent extFailBad dirOut [entBad, entY] 0 (w0 {})).2.1 0
      (by decide)⟩

end RecursiveModuleCompile
